import Mathlib

/-!
Verification development for the VOD downloader web application (src/app.py).

Strings from the Python source are modelled as `List Char`.  Python regular
expression searches are translated into explicit character scanners with the
same leftmost-match, greedy semantics as the original patterns.  Wall-clock
timestamps that the source interpolates into log lines are omitted from the
modelled log lines (they are nondeterministic input, not logic).
-/

/-- Convert a Lean string literal to the character-list representation used
throughout this development. -/
def strOf (s : String) : List Char := s.data

/-- ASCII lower-casing of a single character, mirroring the effect of
Python lower() on the ASCII patterns the source matches against. -/
def lc (c : Char) : Char := c.toLower

/-- Characters removed by FilenameUtils.FORBIDDEN_CHARS, the regex
[<>:"/\\|?*\x00-\x1f]: the nine listed Windows-forbidden characters plus
the C0 control range. -/
def isForbiddenChar (c : Char) : Bool :=
  c == '<' || c == '>' || c == ':' || c == '\"' || c == '/' || c == '\\' ||
  c == '|' || c == '?' || c == '*' || c.toNat < 32

/-- The characters stripped from both ends by strip(' .') in
FilenameUtils.sanitize. -/
def isStripChar (c : Char) : Bool := c == ' ' || c == '.'

/-- Whitespace as matched by a Python regex \s on str input (and by
str.strip with no argument): ASCII whitespace, the C0 separator block, and
the Unicode space characters. -/
def isPySpaceChar (c : Char) : Bool :=
  c == ' ' || c == '\t' || c == '\n' || c == '\r' ||
  c.toNat == 11 || c.toNat == 12 ||
  (28 ≤ c.toNat && c.toNat ≤ 31) ||
  c.toNat == 133 || c.toNat == 160 || c.toNat == 5760 ||
  (8192 ≤ c.toNat && c.toNat ≤ 8202) ||
  c.toNat == 8232 || c.toNat == 8233 || c.toNat == 8239 ||
  c.toNat == 8287 || c.toNat == 12288

/-- Decimal digit, the regex class \d restricted to ASCII as yt-dlp output is
ASCII (Python \d also matches other Unicode digits; none appear in the
patterns' context). -/
def digitChar (c : Char) : Bool := c.isDigit

/-- Drop a literal (case-sensitive) pattern from the front of a string,
returning the remainder on success. -/
def stripPrefixAt : List Char → List Char → Option (List Char)
  | [], s => some s
  | _, [] => none
  | p :: ps, c :: cs => if c == p then stripPrefixAt ps cs else none

/-- Drop a literal pattern from the front of a string, comparing
case-insensitively (for the re.IGNORECASE searches in the source). -/
def stripPrefixCI : List Char → List Char → Option (List Char)
  | [], s => some s
  | _, [] => none
  | p :: ps, c :: cs => if lc c == lc p then stripPrefixCI ps cs else none

/-- Python str.strip(chars): remove leading and trailing characters
satisfying p. -/
def stripWhile (p : Char → Bool) (s : List Char) : List Char :=
  ((s.dropWhile p).reverse.dropWhile p).reverse

/-- Python str.strip() on a string with no leading whitespace: remove
trailing whitespace only. -/
def stripTrailingWs (s : List Char) : List Char :=
  (s.reverse.dropWhile isPySpaceChar).reverse

/-- One pass of Python str.replace for a single-character needle: every
occurrence of c is replaced by the string rep. -/
def replaceChar (c : Char) (rep : List Char) : List Char → List Char
  | [] => []
  | a :: rest => (if a == c then rep else [a]) ++ replaceChar c rep rest

/-- The chained str.replace calls over FilenameUtils.REPLACE_CHARS, in the
source's dictionary order: & to and, # to num, @ to at, ! removed,
% to pct. -/
def applyReplacements (s : List Char) : List Char :=
  replaceChar '%' (strOf "pct")
    (replaceChar '!' []
      (replaceChar '@' (strOf "at")
        (replaceChar '#' (strOf "num")
          (replaceChar '&' (strOf "and") s))))

/-- Worker for collapseWs; the flag records whether the previous character
was whitespace (already emitted as a single space). -/
def collapseWsAux : Bool → List Char → List Char
  | _, [] => []
  | inWs, c :: rest =>
    if isPySpaceChar c then
      if inWs then collapseWsAux true rest
      else ' ' :: collapseWsAux true rest
    else c :: collapseWsAux false rest

/-- re.sub of \s+ with a single space: every maximal whitespace run becomes
one space. -/
def collapseWs (s : List Char) : List Char := collapseWsAux false s

/-- The cleaning pipeline inside FilenameUtils.sanitize, before the final
empty-result fallback: remove forbidden characters, apply the character
replacements, collapse whitespace runs, strip spaces and dots from both
ends, and truncate to maxLength (stripping again after truncation). -/
def cleanedForm (s : List Char) (maxLength : Nat) : List Char :=
  let f1 := s.filter (fun c => !isForbiddenChar c)
  let f2 := applyReplacements f1
  let f3 := collapseWs f2
  let f4 := stripWhile isStripChar f3
  if maxLength < f4.length then stripWhile isStripChar (f4.take maxLength) else f4

/-- FilenameUtils.sanitize: empty input, or input whose cleaned form is
empty, yields the placeholder video; otherwise the cleaned form. -/
def sanitize (s : List Char) (maxLength : Nat) : List Char :=
  if s.isEmpty then strOf "video"
  else
    let f5 := cleanedForm s maxLength
    if f5.isEmpty then strOf "video" else f5

theorem head?_dropWhile_false (p : Char → Bool) (l : List Char) (c : Char)
    (h : (l.dropWhile p).head? = some c) : p c = false := by
  induction l with
  | nil => simp at h
  | cons a t ih =>
    rw [List.dropWhile_cons] at h
    by_cases hp : p a
    · simp [hp] at h
      exact ih h
    · simp [hp] at h
      subst h
      simpa using hp

theorem getLast?_dropWhile_ne_nil (p : Char → Bool) (l : List Char)
    (h : l.dropWhile p ≠ []) : (l.dropWhile p).getLast? = l.getLast? := by
  induction l with
  | nil => simp at h
  | cons a t ih =>
    rw [List.dropWhile_cons]
    by_cases hp : p a
    · rw [List.dropWhile_cons, if_pos hp] at h
      have ht : t ≠ [] := by
        intro h0
        rw [h0] at h
        simp at h
      rw [if_pos hp, ih h]
      cases t with
      | nil => exact absurd rfl ht
      | cons b t2 => simp
    · rw [if_neg hp]

theorem head?_stripWhile (p : Char → Bool) (s : List Char) (c : Char)
    (h : (stripWhile p s).head? = some c) : p c = false := by
  unfold stripWhile at h
  rw [List.head?_reverse] at h
  have hne : (s.dropWhile p).reverse.dropWhile p ≠ [] := by
    intro hnil
    rw [hnil] at h
    simp at h
  rw [getLast?_dropWhile_ne_nil _ _ hne, List.getLast?_reverse] at h
  exact head?_dropWhile_false p s c h

theorem getLast?_stripWhile (p : Char → Bool) (s : List Char) (c : Char)
    (h : (stripWhile p s).getLast? = some c) : p c = false := by
  unfold stripWhile at h
  rw [List.getLast?_reverse] at h
  exact head?_dropWhile_false p (s.dropWhile p).reverse c h

theorem stripWhile_sublist (p : Char → Bool) (s : List Char) :
    List.Sublist (stripWhile p s) s := by
  unfold stripWhile
  have h1 : List.Sublist ((s.dropWhile p).reverse.dropWhile p) (s.dropWhile p).reverse :=
    (List.dropWhile_suffix p).sublist
  have h2 : List.Sublist ((s.dropWhile p).reverse.dropWhile p).reverse (s.dropWhile p) := by
    have := h1.reverse
    simpa using this
  exact h2.trans (List.dropWhile_suffix p).sublist

theorem mem_replaceChar (c : Char) (rep : List Char) (s : List Char) (a : Char)
    (h : a ∈ replaceChar c rep s) : a ∈ rep ∨ a ∈ s := by
  induction s with
  | nil => simp [replaceChar] at h
  | cons b t ih =>
    simp only [replaceChar, List.mem_append] at h
    rcases h with h | h
    · by_cases hb : b == c
      · rw [if_pos hb] at h
        exact Or.inl h
      · rw [if_neg hb] at h
        simp at h
        exact Or.inr (by simp [h])
    · rcases ih h with h2 | h2
      · exact Or.inl h2
      · exact Or.inr (List.mem_cons_of_mem b h2)

theorem mem_applyReplacements (s : List Char) (a : Char)
    (h : a ∈ applyReplacements s) :
    a ∈ strOf "pctandnumat" ∨ a ∈ s := by
  unfold applyReplacements at h
  have step : ∀ (c : Char) (rep t : List Char), a ∈ replaceChar c rep t →
      (∀ x ∈ rep, x ∈ strOf "pctandnumat") → a ∈ strOf "pctandnumat" ∨ a ∈ t := by
    intro c rep t hm hrep
    rcases mem_replaceChar c rep t a hm with h1 | h1
    · exact Or.inl (hrep a h1)
    · exact Or.inr h1
  rcases step _ _ _ h (by decide) with h1 | h1
  · exact Or.inl h1
  rcases step _ _ _ h1 (by decide) with h2 | h2
  · exact Or.inl h2
  rcases step _ _ _ h2 (by decide) with h3 | h3
  · exact Or.inl h3
  rcases step _ _ _ h3 (by decide) with h4 | h4
  · exact Or.inl h4
  rcases step _ _ _ h4 (by decide) with h5 | h5
  · exact Or.inl h5
  · exact Or.inr h5

theorem mem_collapseWsAux (b : Bool) (s : List Char) (a : Char)
    (h : a ∈ collapseWsAux b s) : a = ' ' ∨ a ∈ s := by
  induction s generalizing b with
  | nil => simp [collapseWsAux] at h
  | cons c t ih =>
    simp only [collapseWsAux] at h
    by_cases hc : isPySpaceChar c
    · rw [if_pos hc] at h
      by_cases hb : b
      · rw [if_pos hb] at h
        rcases ih _ h with h1 | h1
        · exact Or.inl h1
        · exact Or.inr (List.mem_cons_of_mem c h1)
      · rw [if_neg hb] at h
        rcases List.mem_cons.mp h with h1 | h1
        · exact Or.inl h1
        · rcases ih _ h1 with h2 | h2
          · exact Or.inl h2
          · exact Or.inr (List.mem_cons_of_mem c h2)
    · rw [if_neg hc] at h
      rcases List.mem_cons.mp h with h1 | h1
      · exact Or.inr (h1 ▸ List.mem_cons_self c t)
      · rcases ih _ h1 with h2 | h2
        · exact Or.inl h2
        · exact Or.inr (List.mem_cons_of_mem c h2)

theorem mem_cleanedForm (s : List Char) (maxLength : Nat) (a : Char)
    (h : a ∈ cleanedForm s maxLength) : isForbiddenChar a = false := by
  unfold cleanedForm at h
  have hf4 : ∀ x ∈ stripWhile isStripChar
      (collapseWs (applyReplacements (s.filter (fun c => !isForbiddenChar c)))),
      isForbiddenChar x = false := by
    intro x hx
    have hx3 := (stripWhile_sublist isStripChar _).mem hx
    rcases mem_collapseWsAux false _ x hx3 with h1 | h1
    · subst h1
      decide
    · rcases mem_applyReplacements _ x h1 with h2 | h2
      · have hrep : ∀ y ∈ strOf "pctandnumat", isForbiddenChar y = false := by decide
        exact hrep x h2
      · have := List.of_mem_filter h2
        simpa using this
  by_cases hlen : maxLength <
      (stripWhile isStripChar
        (collapseWs (applyReplacements (s.filter (fun c => !isForbiddenChar c))))).length
  · rw [if_pos hlen] at h
    have := (stripWhile_sublist isStripChar _).mem h
    exact hf4 a ((List.take_sublist _ _).mem this)
  · rw [if_neg hlen] at h
    exact hf4 a h

theorem cleanedForm_length_le (s : List Char) (maxLength : Nat) :
    (cleanedForm s maxLength).length ≤ maxLength := by
  unfold cleanedForm
  by_cases hlen : maxLength <
      (stripWhile isStripChar
        (collapseWs (applyReplacements (s.filter (fun c => !isForbiddenChar c))))).length
  · rw [if_pos hlen]
    calc (stripWhile isStripChar _).length
        ≤ ((stripWhile isStripChar
            (collapseWs (applyReplacements
              (s.filter (fun c => !isForbiddenChar c))))).take maxLength).length :=
          (stripWhile_sublist _ _).length_le
      _ ≤ maxLength := by
          rw [List.length_take]
          exact Nat.min_le_left _ _
  · rw [if_neg hlen]
    exact Nat.le_of_not_lt hlen

theorem stripWhile_head_all (p : Char → Bool) (x : List Char) :
    ((stripWhile p x).head?.all (fun c => !p c)) = true := by
  cases h : (stripWhile p x).head? with
  | none => rfl
  | some c =>
    have hc := head?_stripWhile p x c h
    simp [hc]

theorem stripWhile_getLast_all (p : Char → Bool) (x : List Char) :
    ((stripWhile p x).getLast?.all (fun c => !p c)) = true := by
  cases h : (stripWhile p x).getLast? with
  | none => rfl
  | some c =>
    have hc := getLast?_stripWhile p x c h
    simp [hc]

theorem cleanedForm_head_all (s : List Char) (maxLength : Nat) :
    ((cleanedForm s maxLength).head?.all (fun c => !isStripChar c)) = true := by
  unfold cleanedForm
  by_cases hlen : maxLength <
      (stripWhile isStripChar
        (collapseWs (applyReplacements (s.filter (fun c => !isForbiddenChar c))))).length
  · rw [if_pos hlen]
    exact stripWhile_head_all _ _
  · rw [if_neg hlen]
    exact stripWhile_head_all _ _

theorem cleanedForm_getLast_all (s : List Char) (maxLength : Nat) :
    ((cleanedForm s maxLength).getLast?.all (fun c => !isStripChar c)) = true := by
  unfold cleanedForm
  by_cases hlen : maxLength <
      (stripWhile isStripChar
        (collapseWs (applyReplacements (s.filter (fun c => !isForbiddenChar c))))).length
  · rw [if_pos hlen]
    exact stripWhile_getLast_all _ _
  · rw [if_neg hlen]
    exact stripWhile_getLast_all _ _

/-- C9: for every input string and every maximum length of at least 5, the
filename sanitizer returns a non-empty string of length at most the maximum,
containing no forbidden character (the nine Windows-reserved characters and
C0 controls) and not starting or ending with a space or a dot; an input
whose cleaned form is empty yields the placeholder video. -/
theorem sanitize_safe (s : List Char) (maxLength : Nat) (h5 : 5 ≤ maxLength) :
    (sanitize s maxLength).isEmpty = false ∧
    (sanitize s maxLength).length ≤ maxLength ∧
    (sanitize s maxLength).all (fun c => !isForbiddenChar c) = true ∧
    ((sanitize s maxLength).head?.all (fun c => !isStripChar c)) = true ∧
    ((sanitize s maxLength).getLast?.all (fun c => !isStripChar c)) = true ∧
    (cleanedForm s maxLength = [] → sanitize s maxLength = strOf "video") := by
  unfold sanitize
  by_cases hse : s.isEmpty
  · rw [if_pos hse]
    refine ⟨by decide, by simpa using h5, by decide, by decide, by decide, fun _ => rfl⟩
  · rw [if_neg hse]
    by_cases hfe : (cleanedForm s maxLength).isEmpty
    · rw [if_pos hfe]
      refine ⟨by decide, by simpa using h5, by decide, by decide, by decide, fun _ => rfl⟩
    · rw [if_neg hfe]
      refine ⟨Bool.eq_false_iff.mpr (fun h0 => hfe h0), cleanedForm_length_le s maxLength, ?_,
        cleanedForm_head_all s maxLength,
        cleanedForm_getLast_all s maxLength, ?_⟩
      · rw [List.all_eq_true]
        intro c hc
        simp [mem_cleanedForm s maxLength c hc]
      · intro h0
        rw [h0] at hfe
        simp at hfe

/-- Witness for sanitize_safe at a concrete input. -/
theorem sanitize_safe_w :
    (sanitize (strOf " My <Video>: part 1!? ") 10).isEmpty = false ∧
    (sanitize (strOf " My <Video>: part 1!? ") 10).length ≤ 10 ∧
    (sanitize (strOf " My <Video>: part 1!? ") 10).all (fun c => !isForbiddenChar c) = true ∧
    ((sanitize (strOf " My <Video>: part 1!? ") 10).head?.all (fun c => !isStripChar c)) = true ∧
    ((sanitize (strOf " My <Video>: part 1!? ") 10).getLast?.all (fun c => !isStripChar c)) = true ∧
    (cleanedForm (strOf " My <Video>: part 1!? ") 10 = [] →
      sanitize (strOf " My <Video>: part 1!? ") 10 = strOf "video") :=
  sanitize_safe (strOf " My <Video>: part 1!? ") 10 (by decide)

/-- Python substring containment (the in operator on str): the pattern is a
prefix of some suffix of the text. -/
def containsSub (pat : List Char) : List Char → Bool
  | [] => pat.isEmpty
  | c :: rest => pat.isPrefixOf (c :: rest) || containsSub pat rest

/-- Characters excluded from a URL token by the negated class in
URLValidator's pattern: whitespace and the characters < > quote apostrophe
braces | backslash caret backtick and square brackets (some written by code
point to keep the source text plain). -/
def urlExcludedChar (c : Char) : Bool :=
  isPySpaceChar c || c == '<' || c == '>' || c == '\"' || c.toNat == 39 ||
  c.toNat == 123 || c.toNat == 125 || c == '|' || c == '\\' || c == '^' ||
  c.toNat == 96 || c == '[' || c == ']'

/-- One URL-token match attempt at the current position, alternatives in the
pattern's order: first a case-insensitive http or https scheme followed by
colon-slash-slash and one or more allowed characters, then a case-insensitive
www. followed by one or more allowed characters.  Returns the matched token
with its original casing. -/
def matchUrlAt (s : List Char) : Option (List Char) :=
  let tryHttp : Option (List Char) :=
    match stripPrefixCI (strOf "http") s with
    | none => none
    | some r1 =>
      let afterScheme : Option (Nat × List Char) :=
        match r1 with
        | c :: cs =>
          if lc c == 's' then
            match stripPrefixAt (strOf "://") cs with
            | some r2 => some (8, r2)
            | none =>
              match stripPrefixAt (strOf "://") r1 with
              | some r2 => some (7, r2)
              | none => none
          else
            match stripPrefixAt (strOf "://") r1 with
            | some r2 => some (7, r2)
            | none => none
        | [] => none
      match afterScheme with
      | none => none
      | some (n, r2) =>
        let body := r2.takeWhile (fun c => !urlExcludedChar c)
        if body.isEmpty then none else some (s.take (n + body.length))
  match tryHttp with
  | some tok => some tok
  | none =>
    match stripPrefixCI (strOf "www.") s with
    | none => none
    | some r =>
      let body := r.takeWhile (fun c => !urlExcludedChar c)
      if body.isEmpty then none else some (s.take (4 + body.length))

/-- re.findall scanning for the first URL token: try a match at every
position from the left and return the first success. -/
def findFirstUrlToken : List Char → Option (List Char)
  | [] => none
  | c :: rest =>
    match matchUrlAt (c :: rest) with
    | some tok => some tok
    | none => findFirstUrlToken rest

/-- The trailing punctuation class [.,;:!?)]+$ stripped from a matched URL. -/
def isTrailPunct (c : Char) : Bool :=
  c == '.' || c == ',' || c == ';' || c == ':' || c == '!' || c == '?' || c == ')'

/-- Remove the maximal trailing run of punctuation from a matched URL. -/
def stripTrailingPunct (s : List Char) : List Char :=
  (s.reverse.dropWhile isTrailPunct).reverse

/-- One alternative of the anchored prefix pattern (url|link followed by one
or more colons or whitespace, case-insensitive): on success return the text
after the removed prefix. -/
def dropTagAt (tag : List Char) (s : List Char) : Option (List Char) :=
  match stripPrefixCI tag s with
  | none => none
  | some r =>
    let run := r.takeWhile (fun c => c == ':' || isPySpaceChar c)
    if run.isEmpty then none else some (r.drop run.length)

/-- The re.sub removing a leading url: or link: tag (with any mix of colons
and whitespace after the word), case-insensitively, trying url before
link as in the pattern's alternation. -/
def removeUrlLinkTag (s : List Char) : List Char :=
  match dropTagAt (strOf "url") s with
  | some r => r
  | none =>
    match dropTagAt (strOf "link") s with
    | some r => r
    | none => s

/-- Python str.strip() with no arguments: whitespace removed from both
ends. -/
def stripEdgesWs (s : List Char) : List Char := stripWhile isPySpaceChar s

/-- The case-sensitive startswith check against the pair of scheme
prefixes. -/
def startsWithHttp (s : List Char) : Bool :=
  (strOf "http://").isPrefixOf s || (strOf "https://").isPrefixOf s

/-- URLValidator.SUPPORTED_DOMAINS. -/
def SUPPORTED_DOMAINS : List (List Char) :=
  [strOf "youtube.com", strOf "youtu.be", strOf "twitch.tv", strOf "facebook.com",
   strOf "instagram.com", strOf "tiktok.com", strOf "vimeo.com", strOf "dailymotion.com",
   strOf "twitter.com", strOf "x.com", strOf "reddit.com", strOf "streamable.com",
   strOf "bilibili.com", strOf "nicovideo.jp", strOf "soundcloud.com"]

/-- URLValidator.extract_url: strip the input, remove a leading url or
link tag, search for the first URL token (scheme-prefixed or www-prefixed);
on a match, strip trailing punctuation and prepend https:// when no scheme
is present; otherwise, if the text mentions a supported domain, return it
with https:// prepended when needed; otherwise None. -/
def extract_url (text : List Char) : Option (List Char) :=
  match findFirstUrlToken (removeUrlLinkTag (stripEdgesWs text)) with
  | some m =>
    if startsWithHttp (stripTrailingPunct m) then some (stripTrailingPunct m)
    else some (strOf "https://" ++ stripTrailingPunct m)
  | none =>
    if SUPPORTED_DOMAINS.any
        (fun d => containsSub d ((removeUrlLinkTag (stripEdgesWs text)).map lc)) then
      if startsWithHttp (removeUrlLinkTag (stripEdgesWs text)) then
        some (removeUrlLinkTag (stripEdgesWs text))
      else some (strOf "https://" ++ removeUrlLinkTag (stripEdgesWs text))
    else none

theorem startsWithHttp_append_https (u : List Char) :
    startsWithHttp (strOf "https://" ++ u) = true := by
  unfold startsWithHttp
  have h : (strOf "https://").isPrefixOf (strOf "https://" ++ u) = true := by
    rw [List.isPrefixOf_iff_prefix]
    exact List.prefix_append _ _
  rw [h]
  simp

/-- C10: every result of URL extraction is None or a string starting with
the http or https scheme; a bare www-prefixed input and a bare
supported-domain input are returned with https:// prepended. -/
theorem extract_url_scheme :
    (∀ text u, extract_url text = some u → startsWithHttp u = true) ∧
    extract_url (strOf "www.example.com") = some (strOf "https://www.example.com") ∧
    extract_url (strOf "youtube.com/watch?v=abc") =
      some (strOf "https://youtube.com/watch?v=abc") := by
  refine ⟨?_, by decide, by decide⟩
  intro text u h
  unfold extract_url at h
  cases hm : findFirstUrlToken (removeUrlLinkTag (stripEdgesWs text)) with
  | some m =>
    rw [hm] at h
    dsimp only at h
    by_cases hs : startsWithHttp (stripTrailingPunct m)
    · rw [if_pos hs] at h
      cases h
      exact hs
    · rw [if_neg hs] at h
      cases h
      exact startsWithHttp_append_https _
  | none =>
    rw [hm] at h
    dsimp only at h
    by_cases hd : SUPPORTED_DOMAINS.any
        (fun d => containsSub d ((removeUrlLinkTag (stripEdgesWs text)).map lc))
    · rw [if_pos hd] at h
      by_cases hs : startsWithHttp (removeUrlLinkTag (stripEdgesWs text))
      · rw [if_pos hs] at h
        cases h
        exact hs
      · rw [if_neg hs] at h
        cases h
        exact startsWithHttp_append_https _
    · rw [if_neg hd] at h
      cases h

/-- Witness for extract_url_scheme at a concrete input. -/
theorem extract_url_scheme_w :
    startsWithHttp (strOf "https://youtu.be/abc123") = true :=
  extract_url_scheme.1 (strOf "check this https://youtu.be/abc123 !!")
    (strOf "https://youtu.be/abc123") (by decide)

/-- Scan a line from the left and return the first position at which the
matcher succeeds (re.search leftmost-match semantics). -/
def scanFirst (f : List Char → Option (List Char)) : List Char → Option (List Char)
  | [] => none
  | c :: rest =>
    match f (c :: rest) with
    | some g => some g
    | none => scanFirst f rest

/-- Nat value of a run of decimal digits. -/
def digitsToNat (l : List Char) : Nat :=
  l.foldl (fun acc c => acc * 10 + (c.toNat - 48)) 0

/-- Python float() on a captured group of digits with an optional dot,
modelled as an exact rational. -/
def floatOfGroup (g : List Char) : Rat :=
  let ip := g.takeWhile digitChar
  match g.drop ip.length with
  | [] => mkRat (digitsToNat ip) 1
  | _ :: fp => mkRat (digitsToNat ip * 10 ^ fp.length + digitsToNat fp) (10 ^ fp.length)

/-- Group of the percentage pattern (digits, optional dot, digits, percent
sign) anchored at the current position; mirrors the backtracking outcome of
the original pattern. -/
def percentAt (s : List Char) : Option (List Char) :=
  let d1 := s.takeWhile digitChar
  if d1.isEmpty then none
  else
    match s.drop d1.length with
    | [] => none
    | c :: rest =>
      if c == '%' then some d1
      else if c == '.' then
        let d2 := rest.takeWhile digitChar
        match rest.drop d2.length with
        | c2 :: _ => if c2 == '%' then some (d1 ++ [c] ++ d2) else none
        | [] => none
      else none

/-- re.search for the yt-dlp percentage token, as a rational. -/
def searchPercent (s : List Char) : Option Rat :=
  (scanFirst percentAt s).map floatOfGroup

/-- Size-unit letters accepted by the file-size and speed patterns. -/
def sizeUnitChar (c : Char) : Bool :=
  c == 'K' || c == 'M' || c == 'G' || c == 'T'

/-- Group of the file-size pattern (literal of, whitespace, digits and dots,
optional whitespace, unit with optional i and B) anchored here. -/
def sizeAt : List Char → Option (List Char)
  | 'o' :: 'f' :: rest =>
    let ws := rest.takeWhile isPySpaceChar
    if ws.isEmpty then none
    else
      let r1 := rest.drop ws.length
      let num := r1.takeWhile (fun c => digitChar c || c == '.')
      if num.isEmpty then none
      else
        let r2 := r1.drop num.length
        let ws2 := r2.takeWhile isPySpaceChar
        match r2.drop ws2.length with
        | u :: 'i' :: 'B' :: _ => if sizeUnitChar u then some (num ++ ws2 ++ [u, 'i', 'B']) else none
        | u :: 'B' :: _ => if sizeUnitChar u then some (num ++ ws2 ++ [u, 'B']) else none
        | _ => none
  | _ => none

/-- re.search for the file-size token. -/
def searchSize (s : List Char) : Option (List Char) := scanFirst sizeAt s

/-- Group of the speed pattern (literal at, whitespace, digits and dots,
optional whitespace, unit with optional i, B, slash s) anchored here. -/
def speedAt : List Char → Option (List Char)
  | 'a' :: 't' :: rest =>
    let ws := rest.takeWhile isPySpaceChar
    if ws.isEmpty then none
    else
      let r1 := rest.drop ws.length
      let num := r1.takeWhile (fun c => digitChar c || c == '.')
      if num.isEmpty then none
      else
        let r2 := r1.drop num.length
        let ws2 := r2.takeWhile isPySpaceChar
        match r2.drop ws2.length with
        | u :: 'i' :: 'B' :: '/' :: 's' :: _ =>
          if sizeUnitChar u then some (num ++ ws2 ++ [u, 'i', 'B', '/', 's']) else none
        | u :: 'B' :: '/' :: 's' :: _ =>
          if sizeUnitChar u then some (num ++ ws2 ++ [u, 'B', '/', 's']) else none
        | _ => none
  | _ => none

/-- re.search for the speed token. -/
def searchSpeed (s : List Char) : Option (List Char) := scanFirst speedAt s

/-- Group of the ETA pattern (literal ETA, whitespace, digits, colon, digits,
optional colon and digits) anchored here. -/
def etaAt : List Char → Option (List Char)
  | 'E' :: 'T' :: 'A' :: rest =>
    let ws := rest.takeWhile isPySpaceChar
    if ws.isEmpty then none
    else
      let r1 := rest.drop ws.length
      let d1 := r1.takeWhile digitChar
      if d1.isEmpty then none
      else
        match r1.drop d1.length with
        | ':' :: r2 =>
          let d2 := r2.takeWhile digitChar
          if d2.isEmpty then none
          else
            match r2.drop d2.length with
            | ':' :: r3 =>
              let d3 := r3.takeWhile digitChar
              if d3.isEmpty then some (d1 ++ [':'] ++ d2)
              else some (d1 ++ [':'] ++ d2 ++ [':'] ++ d3)
            | _ => some (d1 ++ [':'] ++ d2)
        | _ => none
  | _ => none

/-- re.search for the ETA token. -/
def searchEta (s : List Char) : Option (List Char) := scanFirst etaAt s

/-- The destination pattern (literal Destination colon, whitespace, then the
greedy dot-plus remainder) anchored here, followed by the group strip();
when the remainder is empty the greedy quantifiers backtrack so that the
group is the last whitespace character, which then strips to empty. -/
def destAt (s : List Char) : Option (List Char) :=
  match stripPrefixAt (strOf "Destination:") s with
  | none => none
  | some rest =>
    let ws := rest.takeWhile isPySpaceChar
    if ws.isEmpty then none
    else
      let r := rest.drop ws.length
      if r.isEmpty then
        if 2 ≤ ws.length then some [] else none
      else some (stripTrailingWs r)

/-- re.search for the destination path, stripped. -/
def searchDest (s : List Char) : Option (List Char) := scanFirst destAt s

/-- Group of the aria2c integer percentage pattern anchored here. -/
def ariaPercentAt (s : List Char) : Option (List Char) :=
  let d := s.takeWhile digitChar
  if d.isEmpty then none
  else
    match s.drop d.length with
    | c :: _ => if c == '%' then some d else none
    | [] => none

/-- re.search for the aria2c percentage, as a rational. -/
def searchAriaPercent (s : List Char) : Option Rat :=
  (scanFirst ariaPercentAt s).map (fun d => mkRat (digitsToNat d) 1)

/-- Group of the bracketed aria2c rate pattern (literal open-bracket DL
colon, one or more non-bracket characters, close bracket) anchored here. -/
def ariaSpeedAt (s : List Char) : Option (List Char) :=
  match stripPrefixAt (strOf "[DL:") s with
  | none => none
  | some r =>
    let body := r.takeWhile (fun c => !(c == ']'))
    if body.isEmpty then none
    else
      match r.drop body.length with
      | c :: _ => if c == ']' then some body else none
      | [] => none

/-- re.search for the aria2c rate. -/
def searchAriaSpeed (s : List Char) : Option (List Char) := scanFirst ariaSpeedAt s

/-- Group of the ffmpeg time pattern (literal time equals, then
hours colon minutes colon seconds dot fraction) anchored here. -/
def ffmpegTimeAt (s : List Char) : Option (List Char) :=
  match stripPrefixAt (strOf "time=") s with
  | none => none
  | some r =>
    let d1 := r.takeWhile digitChar
    if d1.isEmpty then none
    else
      match r.drop d1.length with
      | ':' :: r2 =>
        let d2 := r2.takeWhile digitChar
        if d2.isEmpty then none
        else
          match r2.drop d2.length with
          | ':' :: r3 =>
            let d3 := r3.takeWhile digitChar
            if d3.isEmpty then none
            else
              match r3.drop d3.length with
              | '.' :: r4 =>
                let d4 := r4.takeWhile digitChar
                if d4.isEmpty then none
                else some (d1 ++ [':'] ++ d2 ++ [':'] ++ d3 ++ ['.'] ++ d4)
              | _ => none
          | _ => none
      | _ => none

/-- re.search for the ffmpeg processing time. -/
def searchFfmpegTime (s : List Char) : Option (List Char) := scanFirst ffmpegTimeAt s

/-- Group of the ffmpeg speed pattern (literal speed equals, optional
whitespace, digits and dots, literal x) anchored here. -/
def ffmpegSpeedAt (s : List Char) : Option (List Char) :=
  match stripPrefixAt (strOf "speed=") s with
  | none => none
  | some r =>
    let ws := r.takeWhile isPySpaceChar
    let r1 := r.drop ws.length
    let num := r1.takeWhile (fun c => digitChar c || c == '.')
    if num.isEmpty then none
    else
      match r1.drop num.length with
      | 'x' :: _ => some (num ++ [ 'x'])
      | _ => none

/-- re.search for the ffmpeg processing speed. -/
def searchFfmpegSpeed (s : List Char) : Option (List Char) := scanFirst ffmpegSpeedAt s

/-- A path separator for the deployment platform (ntpath treats both the
backslash and the forward slash as separators). -/
def isSepChar (c : Char) : Bool := c == '/' || c == '\\'

/-- os.path.basename, simplified to a split at the last separator (repeated
separators are not collapsed; no theorem below depends on that corner). -/
def baseNameOf (p : List Char) : List Char :=
  (p.reverse.takeWhile (fun c => !isSepChar c)).reverse

/-- os.path.dirname, simplified to everything before the last separator. -/
def dirNameOf (p : List Char) : List Char :=
  match p.reverse.drop (p.reverse.takeWhile (fun c => !isSepChar c)).length with
  | [] => []
  | _ :: r2 => r2.reverse

/-- The per-task mutable record held in task_status, with the fields the
source reads or writes; fields the source only creates on demand are
Options.  progress is an exact rational standing for the Python float. -/
structure TaskRec where
  status : List Char
  output : List (List Char)
  title : List Char
  created_at : Nat
  dtype : List Char
  url : List Char
  date : Option (List Char)
  progress : Rat
  file_size : Option (List Char)
  speed : Option (List Char)
  eta : Option (List Char)
  processing_time : Option (List Char)
  processing_speed : Option (List Char)
deriving DecidableEq

/-- The per-download state of a YTDLPDownloader instance that the modelled
methods read or write. -/
structure Downloader where
  client_id : List Char
  url : List Char
  download_type : List Char
  date : Option (List Char)
  cancelled : Bool
  downloaded_file : Option (List Char)
deriving DecidableEq

/-- The percentage block of parse_progress in the download branch. -/
def applyPercent (t : TaskRec) (line : List Char) : TaskRec :=
  match searchPercent line with
  | some p => { t with progress := p }
  | none => t

/-- The file-size block of parse_progress. -/
def applySize (t : TaskRec) (line : List Char) : TaskRec :=
  match searchSize line with
  | some g => { t with file_size := some g }
  | none => t

/-- The speed block of parse_progress. -/
def applySpeed (t : TaskRec) (line : List Char) : TaskRec :=
  match searchSpeed line with
  | some g => { t with speed := some g }
  | none => t

/-- The ETA block of parse_progress. -/
def applyEta (t : TaskRec) (line : List Char) : TaskRec :=
  match searchEta line with
  | some g => { t with eta := some g }
  | none => t

/-- The destination block of parse_progress: record the downloaded file path
on the downloader and derive the title from the parent directory name. -/
def applyDest (d : Downloader) (t : TaskRec) (line : List Char) : Downloader × TaskRec :=
  match searchDest line with
  | none => (d, t)
  | some path =>
    let d2 := { d with downloaded_file := some path }
    let title := baseNameOf (dirNameOf path)
    if !title.isEmpty && title != strOf "." then (d2, { t with title := sanitize title 50 })
    else (d2, t)

/-- The aria2c percentage block of parse_progress. -/
def applyAriaPercent (t : TaskRec) (line : List Char) : TaskRec :=
  match searchAriaPercent line with
  | some p => { t with progress := p }
  | none => t

/-- The aria2c rate block of parse_progress. -/
def applyAriaSpeed (t : TaskRec) (line : List Char) : TaskRec :=
  match searchAriaSpeed line with
  | some g => { t with speed := some g }
  | none => t

/-- The ffmpeg time block of parse_progress. -/
def applyFfmpegTime (t : TaskRec) (line : List Char) : TaskRec :=
  match searchFfmpegTime line with
  | some g => { t with processing_time := some g }
  | none => t

/-- The ffmpeg speed block of parse_progress. -/
def applyFfmpegSpeed (t : TaskRec) (line : List Char) : TaskRec :=
  match searchFfmpegSpeed line with
  | some g => { t with processing_speed := some g }
  | none => t

/-- YTDLPDownloader.parse_progress on one stripped line: the download
branch updates progress, file size, speed, ETA and possibly the destination
and title; the aria2c branch updates progress and speed; the ffmpeg branch
updates the processing fields; all other lines leave the task unchanged. -/
def parse_progress (d : Downloader) (t : TaskRec) (line : List Char) : Downloader × TaskRec :=
  if containsSub (strOf "[download]") line then
    let t4 := applyEta (applySpeed (applySize (applyPercent t line) line) line) line
    if containsSub (strOf "Destination:") line then applyDest d t4 line
    else (d, t4)
  else if containsSub (strOf "aria2") (line.map lc) && line.contains '%' then
    (d, applyAriaSpeed (applyAriaPercent t line) line)
  else if containsSub (strOf "frame=") line && containsSub (strOf "time=") line then
    (d, applyFfmpegSpeed (applyFfmpegTime t line) line)
  else (d, t)

/-- The read loop's classifier pass over a sequence of stripped lines, in
arrival order. -/
def processLines (d : Downloader) (t : TaskRec) (lines : List (List Char)) : Downloader × TaskRec :=
  lines.foldl (fun acc l => parse_progress acc.1 acc.2 l) (d, t)

/-- The percentage delta a single line contributes, if any: the download
branch's percentage token or the aria2c branch's integer percentage. -/
def percentDelta (line : List Char) : Option Rat :=
  if containsSub (strOf "[download]") line then searchPercent line
  else if containsSub (strOf "aria2") (line.map lc) && line.contains '%' then
    searchAriaPercent line
  else none

/-- A concrete downloader instance used by the witnesses below. -/
def downloaderA : Downloader :=
  { client_id := strOf "task_a", url := strOf "https://example.com/v",
    download_type := strOf "regular", date := none, cancelled := false,
    downloaded_file := none }

/-- A concrete task in the downloading state, as the read loop sees it. -/
def taskDL : TaskRec :=
  { status := strOf "downloading", output := [], title := strOf "Processing...",
    created_at := 0, dtype := strOf "regular", url := strOf "https://example.com/v",
    date := none, progress := 0, file_size := none, speed := none, eta := none,
    processing_time := none, processing_speed := none }

/-- C7: the classifier fed the reference download line produces exactly the
delta progress 45.2, file size 123.45MiB, speed 2.34MiB per second and
ETA 00:30, and nothing else. -/
theorem classifier_download_line :
    parse_progress downloaderA taskDL
        (strOf "[download]  45.2% of 123.45MiB at 2.34MiB/s ETA 00:30") =
      (downloaderA,
        { taskDL with
            progress := (45.2 : Rat)
            file_size := some (strOf "123.45MiB")
            speed := some (strOf "2.34MiB/s")
            eta := some (strOf "00:30") }) := by
  have hr : mkRat 452 10 = (45.2 : Rat) := by norm_num [mkRat]
  rw [← hr]
  decide

/-- Counterexample to C6: parse_progress copies any percentage token into
progress without clamping, so a line reporting 150.0 percent drives progress
above 100 while the task is downloading; and a later line with a smaller
percentage lowers progress, so progress is not non-decreasing either. -/
theorem progress_claim_false :
    taskDL.status = strOf "downloading" ∧
    (processLines downloaderA taskDL [strOf "[download] 150.0% of 10MiB"]).2.status =
      strOf "downloading" ∧
    (processLines downloaderA taskDL [strOf "[download] 150.0% of 10MiB"]).2.progress = 150 ∧
    ¬((processLines downloaderA taskDL
        [strOf "[download] 150.0% of 10MiB"]).2.progress ≤ 100) ∧
    (processLines downloaderA taskDL [strOf "[download]  50.0%"]).2.progress = 50 ∧
    (processLines downloaderA taskDL
      [strOf "[download]  50.0%", strOf "[download]  30.0%"]).2.progress = 30 ∧
    (30 : Rat) < 50 := by
  decide

theorem parse_progress_progress (d : Downloader) (t : TaskRec) (line : List Char) :
    (parse_progress d t line).2.progress = (percentDelta line).getD t.progress := by
  unfold parse_progress percentDelta
  by_cases h1 : containsSub (strOf "[download]") line
  · rw [if_pos h1, if_pos h1]
    have ht4 : (applyEta (applySpeed (applySize (applyPercent t line) line) line) line).progress
        = (searchPercent line).getD t.progress := by
      unfold applyEta applySpeed applySize applyPercent
      cases searchPercent line <;> cases searchSize line <;> cases searchSpeed line <;>
        cases searchEta line <;> simp
    by_cases h2 : containsSub (strOf "Destination:") line
    · rw [if_pos h2]
      unfold applyDest
      cases searchDest line with
      | none => simpa using ht4
      | some path =>
        dsimp only
        split
        · simpa using ht4
        · simpa using ht4
    · rw [if_neg h2]
      simpa using ht4
  · rw [if_neg h1, if_neg h1]
    by_cases h2 : containsSub (strOf "aria2") (line.map lc) && line.contains '%'
    · rw [if_pos h2, if_pos h2]
      unfold applyAriaSpeed applyAriaPercent
      cases searchAriaPercent line <;> cases searchAriaSpeed line <;> simp
    · rw [if_neg h2, if_neg h2]
      by_cases h3 : containsSub (strOf "frame=") line && containsSub (strOf "time=") line
      · rw [if_pos h3]
        unfold applyFfmpegSpeed applyFfmpegTime
        cases searchFfmpegTime line <;> cases searchFfmpegSpeed line <;> simp
      · rw [if_neg h3]
        simp

/-- C6 as amended: progress always equals the last parsed percentage token
(the code neither clamps nor enforces monotonicity), so whenever the initial
value and every percentage token parsed from the observed lines lie within
0 to 100, progress lies within 0 to 100 at every observation point of the
read loop. -/
theorem progress_within_range (d : Downloader) (t : TaskRec) (lines : List (List Char))
    (h0 : 0 ≤ t.progress ∧ t.progress ≤ 100)
    (hl : ∀ l ∈ lines, ∀ p, percentDelta l = some p → 0 ≤ p ∧ p ≤ 100) :
    ∀ k, 0 ≤ (processLines d t (lines.take k)).2.progress ∧
      (processLines d t (lines.take k)).2.progress ≤ 100 := by
  induction lines generalizing d t with
  | nil =>
    intro k
    simpa [processLines] using h0
  | cons l ls ih =>
    intro k
    cases k with
    | zero => simpa [processLines] using h0
    | succ k2 =>
      rw [List.take_succ_cons]
      have hstep : processLines d t (l :: ls.take k2)
          = processLines (parse_progress d t l).1 (parse_progress d t l).2 (ls.take k2) := by
        simp [processLines]
      rw [hstep]
      have hp : 0 ≤ (parse_progress d t l).2.progress ∧
          (parse_progress d t l).2.progress ≤ 100 := by
        rw [parse_progress_progress]
        cases hd : percentDelta l with
        | none => simpa using h0
        | some p => simpa using hl l (List.mem_cons_self l ls) p hd
      exact ih _ _ hp (fun l2 hl2 p hp2 => hl l2 (List.mem_cons_of_mem l hl2) p hp2) k2

/-- Witness for progress_within_range at a concrete line sequence. -/
theorem progress_within_range_w :
    0 ≤ (processLines downloaderA taskDL
        ([strOf "[download]  45.2% of 1MiB"].take 1)).2.progress ∧
    (processLines downloaderA taskDL
        ([strOf "[download]  45.2% of 1MiB"].take 1)).2.progress ≤ 100 := by
  refine progress_within_range downloaderA taskDL [strOf "[download]  45.2% of 1MiB"]
    (by decide) ?_ 1
  intro l hm p hp
  have hl : l = strOf "[download]  45.2% of 1MiB" := by simpa using hm
  subst hl
  have hv : percentDelta (strOf "[download]  45.2% of 1MiB") = some (mkRat 452 10) := by decide
  rw [hv] at hp
  have hpv : p = mkRat 452 10 := by
    injection hp with h
    exact h.symm
  subst hpv
  decide

/-- YTDLPDownloader.handle_errors non-critical pattern list: messages the
orchestrator works around itself and silently ignores. -/
def non_critical_patterns : List (List Char) :=
  [strOf "cannot write internet shortcut", strOf "write url link"]

/-- YTDLPDownloader.handle_errors critical error list. -/
def critical_errors : List (List Char) :=
  [strOf "error: unable to download", strOf "error: video not available",
   strOf "error: private video", strOf "error: this video is not available",
   strOf "http error 404", strOf "http error 403"]

/-- YTDLPDownloader.handle_errors on one stripped line: true exactly when
the lower-cased line contains a critical-error signature and none of the
ignorable patterns; remaining warning or error lines are logged but
non-critical (false). -/
def handle_errors (line : List Char) : Bool :=
  let lower := line.map lc
  if non_critical_patterns.any (fun p => containsSub p lower) then false
  else if critical_errors.any (fun p => containsSub p lower) then true
  else false

/-- The final status resolution at the end of run_download: cancelled wins,
then exit code zero with no critical error observed means finished with
progress forced to 100, otherwise an error status carrying the exit code.
The appended log lines carry wall-clock timestamps and are not modelled
here. -/
def resolveFinal (cancelled : Bool) (rc : Int) (criticalFound : Bool) (t : TaskRec) : TaskRec :=
  if cancelled then { t with status := strOf "cancelled" }
  else if rc == 0 && !criticalFound then
    { t with status := strOf "finished", progress := 100 }
  else { t with status := strOf "error: Exit code " ++ (toString rc).data }

/-- C1: for a run whose read loop observed the given lines, the terminal
status is resolved in priority order: cancellation wins; otherwise exit code
zero with no critical-severity line gives finished and progress 100;
otherwise an error status carrying the exit code. -/
theorem final_status_resolution (cancelled : Bool) (rc : Int) (lines : List (List Char))
    (t : TaskRec) :
    (cancelled = true →
      (resolveFinal cancelled rc (lines.any handle_errors) t).status = strOf "cancelled") ∧
    (cancelled = false → rc = 0 → (∀ l ∈ lines, handle_errors l = false) →
      (resolveFinal cancelled rc (lines.any handle_errors) t).status = strOf "finished" ∧
      (resolveFinal cancelled rc (lines.any handle_errors) t).progress = 100) ∧
    (cancelled = false → (rc ≠ 0 ∨ ∃ l ∈ lines, handle_errors l = true) →
      (resolveFinal cancelled rc (lines.any handle_errors) t).status =
        strOf "error: Exit code " ++ (toString rc).data) := by
  refine ⟨?_, ?_, ?_⟩
  · intro hc
    subst hc
    simp [resolveFinal]
  · intro hc h0 hnone
    subst hc
    subst h0
    have hany : lines.any handle_errors = false := by
      by_contra hcon
      rw [Bool.not_eq_false, List.any_eq_true] at hcon
      rcases hcon with ⟨l, hl, he⟩
      rw [hnone l hl] at he
      cases he
    rw [hany]
    simp [resolveFinal]
  · intro hc hor
    subst hc
    rcases hor with hrc | ⟨l, hl, he⟩
    · have : (rc == 0) = false := by
        simpa using hrc
      simp [resolveFinal, this]
    · have hany : lines.any handle_errors = true :=
        List.any_eq_true.mpr ⟨l, hl, he⟩
      rw [hany]
      simp [resolveFinal]

/-- Witness for final_status_resolution at concrete runs. -/
theorem final_status_resolution_w :
    (resolveFinal false 0 (([strOf "[download] 100% of 1MiB"]).any handle_errors) taskDL).status
        = strOf "finished" ∧
    (resolveFinal false 0 (([strOf "[download] 100% of 1MiB"]).any handle_errors) taskDL).progress
        = 100 :=
  (final_status_resolution false 0 [strOf "[download] 100% of 1MiB"] taskDL).2.1 rfl rfl
    (by decide)

/-- The periodic update path of the read loop (extend output with the
buffered lines, then keep only the last 200 when over the cap, as the
slice with negative start does). -/
def extendAndTrim (t : TaskRec) (buffer : List (List Char)) : TaskRec :=
  { t with
      output :=
        if 200 < (t.output ++ buffer).length then
          (t.output ++ buffer).drop ((t.output ++ buffer).length - 200)
        else t.output ++ buffer }

/-- The end-of-loop flush path of run_download: extend output with the
remaining buffered lines, with no trimming. -/
def flushRemaining (t : TaskRec) (buffer : List (List Char)) : TaskRec :=
  { t with output := t.output ++ buffer }

/-- A task whose output already holds 200 lines. -/
def task200 : TaskRec := { taskDL with output := List.replicate 200 (strOf "line") }

set_option maxRecDepth 8000 in
/-- Counterexample to C2: the flush path appends without trimming, so a task
already holding 200 output lines exceeds the cap after the flush. -/
theorem output_cap_claim_false :
    task200.output.length = 200 ∧
    (flushRemaining task200 [strOf "one more line"]).output.length = 201 ∧
    ¬((flushRemaining task200 [strOf "one more line"]).output.length ≤ 200) := by
  have hlen : task200.output.length = 200 := by
    show (List.replicate 200 (strOf "line")).length = 200
    rw [List.length_replicate]
  refine ⟨hlen, ?_, ?_⟩
  · show (task200.output ++ [strOf "one more line"]).length = 201
    rw [List.length_append, hlen]
    rfl
  · show ¬((task200.output ++ [strOf "one more line"]).length ≤ 200)
    rw [List.length_append, hlen]
    decide

/-- C2 as amended: only the periodic batch-update path enforces the cap;
after it runs, output has at most 200 lines and is a suffix of the extended
log, so the oldest lines are the ones dropped.  (The flush, final-status and
cancel-route appends do not trim, as the counterexample records.) -/
theorem output_cap_periodic_trim (t : TaskRec) (buffer : List (List Char)) :
    (extendAndTrim t buffer).output.length ≤ 200 ∧
    List.IsSuffix (extendAndTrim t buffer).output (t.output ++ buffer) := by
  constructor
  · show (if 200 < (t.output ++ buffer).length then
        (t.output ++ buffer).drop ((t.output ++ buffer).length - 200)
      else t.output ++ buffer).length ≤ 200
    by_cases h : 200 < (t.output ++ buffer).length
    · rw [if_pos h, List.length_drop]
      omega
    · rw [if_neg h]
      exact Nat.le_of_not_lt h
  · show List.IsSuffix (if 200 < (t.output ++ buffer).length then
        (t.output ++ buffer).drop ((t.output ++ buffer).length - 200)
      else t.output ++ buffer) (t.output ++ buffer)
    by_cases h : 200 < (t.output ++ buffer).length
    · rw [if_pos h]
      exact List.drop_suffix _ _
    · rw [if_neg h]

/-- The terminal-status test used by the routes and the retention logic:
finished, cancelled, or any status beginning with error. -/
def isTerminal (s : List Char) : Bool :=
  s == strOf "finished" || s == strOf "cancelled" || (strOf "error").isPrefixOf s


/-- The task_status mapping, modelled as an insertion-ordered association
list as a Python dict is; lookup returns the record under the key. -/
def lookupTask : List (List Char × TaskRec) → List Char → Option TaskRec
  | [], _ => none
  | p :: rest, cid => if p.1 == cid then some p.2 else lookupTask rest cid

/-- In-place mutation of the record held under an existing key (a Python
dict item assignment for a present key). -/
def updateTask (store : List (List Char × TaskRec)) (cid : List Char)
    (f : TaskRec → TaskRec) : List (List Char × TaskRec) :=
  store.map (fun p => if p.1 == cid then (p.1, f p.2) else p)

/-- Python dict item assignment: replace the record under the key when the
key is present, otherwise append the new binding at the end (insertion
order). -/
def setTask (store : List (List Char × TaskRec)) (cid : List Char) (t : TaskRec) :
    List (List Char × TaskRec) :=
  if store.any (fun p => p.1 == cid) then updateTask store cid (fun _ => t)
  else store ++ [(cid, t)]

/-- The fresh record run_download installs unconditionally under its client
id before validation and spawn (the timestamped first output line is
modelled without its wall-clock prefix). -/
def initTask (d : Downloader) (now : Nat) : TaskRec :=
  { status := strOf "initializing",
    output := [strOf "Initializing download..."],
    title := strOf "Processing...",
    created_at := now,
    dtype := d.download_type,
    url := d.url,
    date := d.date,
    progress := 0,
    file_size := none, speed := none, eta := none,
    processing_time := none, processing_speed := none }

/-- The three ways the cancel route reaches its mutation: the active
process was terminated, termination failed, or no active process exists.
Each appends a different log line; all set the status to cancelled. -/
inductive CancelPath
  | termOk
  | termFail
  | notActive
deriving DecidableEq

/-- The log line the cancel route appends on each path (wall-clock prefix
omitted). -/
def cancelNote : CancelPath → List Char
  | .termOk => strOf "Download cancelled by user"
  | .termFail => strOf "Download marked as cancelled"
  | .notActive => strOf "Download cancelled"

/-- The mutation every branch of the cancel route applies to the task. -/
def markCancelled (path : CancelPath) (t2 : TaskRec) : TaskRec :=
  { t2 with
      status := strOf "cancelled"
      output := t2.output ++ [cancelNote path] }

/-- The cancel_download route: unknown ids and already-terminal tasks leave
the store unchanged; otherwise the task's status becomes cancelled and a log
line is appended, on every path. -/
def cancel_download (store : List (List Char × TaskRec)) (cid : List Char)
    (path : CancelPath) : List (List Char × TaskRec) :=
  match lookupTask store cid with
  | none => store
  | some t =>
    if isTerminal t.status then store
    else updateTask store cid (markCancelled path)

theorem lookup_updateTask_self (store : List (List Char × TaskRec)) (cid : List Char)
    (f : TaskRec → TaskRec) (t : TaskRec) (h : lookupTask store cid = some t) :
    lookupTask (updateTask store cid f) cid = some (f t) := by
  induction store with
  | nil => simp [lookupTask] at h
  | cons p rest ih =>
    by_cases hp : (p.1 == cid) = true
    · rw [lookupTask, if_pos hp] at h
      have hpt : p.2 = t := by
        injection h
      rw [updateTask, List.map_cons, if_pos hp]
      rw [lookupTask, if_pos hp, hpt]
    · rw [lookupTask, if_neg hp] at h
      rw [updateTask, List.map_cons, if_neg hp]
      rw [lookupTask, if_neg hp]
      exact ih h

theorem lookup_updateTask_ne (store : List (List Char × TaskRec)) (cid : List Char)
    (f : TaskRec → TaskRec) (c2 : List Char) (h : (c2 == cid) = false) :
    lookupTask (updateTask store cid f) c2 = lookupTask store c2 := by
  induction store with
  | nil => rfl
  | cons p rest ih =>
    by_cases hp : (p.1 == cid) = true
    · have hpc : (p.1 == c2) = false := by
        have h1 : p.1 = cid := by simpa using hp
        subst h1
        rw [beq_eq_false_iff_ne] at h ⊢
        exact fun h2 => h (h2 ▸ rfl)
      rw [updateTask, List.map_cons, if_pos hp]
      rw [lookupTask, if_neg (by simp [hpc]), lookupTask, if_neg (by simp [hpc])]
      exact ih
    · rw [updateTask, List.map_cons, if_neg hp]
      by_cases hpc : (p.1 == c2) = true
      · rw [lookupTask, if_pos hpc, lookupTask, if_pos hpc]
      · rw [lookupTask, if_neg (by simp [hpc]), lookupTask, if_neg (by simp [hpc])]
        exact ih

/-- C4: cancelling an existing non-terminal task always leaves it with
status cancelled (a terminal status, in particular not downloading), and a
second cancel on the same task leaves the whole store unchanged. -/
theorem cancel_route_terminal (store : List (List Char × TaskRec)) (cid : List Char)
    (path path2 : CancelPath) (t : TaskRec)
    (hfind : lookupTask store cid = some t)
    (hnt : isTerminal t.status = false) :
    (∃ t2, lookupTask (cancel_download store cid path) cid = some t2 ∧
      t2.status = strOf "cancelled" ∧ isTerminal t2.status = true ∧
      t2.status ≠ strOf "downloading") ∧
    cancel_download (cancel_download store cid path) cid path2 =
      cancel_download store cid path := by
  have hst : (markCancelled path t).status = strOf "cancelled" := rfl
  have hterm : isTerminal (markCancelled path t).status = true := by
    rw [hst]
    decide
  have h1 : cancel_download store cid path = updateTask store cid (markCancelled path) := by
    unfold cancel_download
    rw [hfind]
    dsimp only
    rw [hnt]
    simp
  have h2 := lookup_updateTask_self store cid (markCancelled path) t hfind
  constructor
  · rw [h1]
    refine ⟨markCancelled path t, h2, hst, hterm, ?_⟩
    rw [hst]
    decide
  · rw [h1]
    unfold cancel_download
    rw [h2]
    dsimp only
    rw [hterm]
    simp

/-- Witness for cancel_route_terminal at a concrete store. -/
theorem cancel_route_terminal_w :
    (∃ t2, lookupTask (cancel_download [(strOf "a", taskDL)] (strOf "a") .termOk)
        (strOf "a") = some t2 ∧
      t2.status = strOf "cancelled" ∧ isTerminal t2.status = true ∧
      t2.status ≠ strOf "downloading") ∧
    cancel_download (cancel_download [(strOf "a", taskDL)] (strOf "a") .termOk)
        (strOf "a") .notActive =
      cancel_download [(strOf "a", taskDL)] (strOf "a") .termOk :=
  cancel_route_terminal [(strOf "a", taskDL)] (strOf "a") .termOk .notActive taskDL
    (by decide) (by decide)

theorem lookup_of_any (store : List (List Char × TaskRec)) (cid : List Char)
    (h : store.any (fun p => p.1 == cid) = true) :
    ∃ u, lookupTask store cid = some u := by
  induction store with
  | nil => simp at h
  | cons p rest ih =>
    by_cases hp : (p.1 == cid) = true
    · exact ⟨p.2, by rw [lookupTask, if_pos hp]⟩
    · rw [List.any_cons] at h
      have hpf : (p.1 == cid) = false := by
        cases hb : (p.1 == cid)
        · rfl
        · exact absurd hb hp
      rw [hpf, Bool.false_or] at h
      rcases ih h with ⟨u, hu⟩
      exact ⟨u, by rw [lookupTask, if_neg hp]; exact hu⟩

theorem lookup_append_self (store : List (List Char × TaskRec)) (cid : List Char)
    (t : TaskRec) (h : store.any (fun p => p.1 == cid) = false) :
    lookupTask (store ++ [(cid, t)]) cid = some t := by
  induction store with
  | nil =>
    show lookupTask [(cid, t)] cid = some t
    rw [lookupTask, if_pos (by simp)]
  | cons p rest ih =>
    rw [List.any_cons] at h
    have hp : (p.1 == cid) = false := by
      cases hb : (p.1 == cid)
      · rfl
      · rw [hb] at h
        simp at h
    rw [hp, Bool.false_or] at h
    rw [List.cons_append, lookupTask, if_neg (by simp [hp])]
    exact ih h

theorem lookup_append_ne (store : List (List Char × TaskRec)) (cid c2 : List Char)
    (t : TaskRec) (h : (c2 == cid) = false) :
    lookupTask (store ++ [(cid, t)]) c2 = lookupTask store c2 := by
  induction store with
  | nil =>
    have hne : (cid == c2) = false := by
      rw [beq_eq_false_iff_ne] at h ⊢
      exact fun h2 => h (h2 ▸ rfl)
    show (if (cid == c2) = true then some t else lookupTask [] c2) = lookupTask [] c2
    rw [if_neg (by simp [hne])]
  | cons p rest ih =>
    rw [List.cons_append]
    by_cases hp : (p.1 == c2) = true
    · rw [lookupTask, if_pos hp, lookupTask, if_pos hp]
    · rw [lookupTask, if_neg hp, lookupTask, if_neg hp]
      exact ih

theorem keys_updateTask (store : List (List Char × TaskRec)) (cid : List Char)
    (f : TaskRec → TaskRec) :
    (updateTask store cid f).map Prod.fst = store.map Prod.fst := by
  induction store with
  | nil => rfl
  | cons p rest ih =>
    have hstep : updateTask (p :: rest) cid f
        = (if (p.1 == cid) = true then (p.1, f p.2) else p) :: updateTask rest cid f := rfl
    rw [hstep, List.map_cons, List.map_cons]
    by_cases hp : (p.1 == cid) = true
    · rw [if_pos hp, ih]
    · rw [if_neg hp, ih]

/-- A finished task used by the overwrite counterexample. -/
def finishedA : TaskRec :=
  { taskDL with status := strOf "finished", progress := 100, title := strOf "Old video" }

/-- A store already holding a record under the id a. -/
def storeC8 : List (List Char × TaskRec) := [(strOf "a", finishedA)]

/-- Counterexample to C8: a submission reusing an existing client id does
not fail; run_download unconditionally reinstalls a fresh record under that
id, overwriting the existing one. -/
theorem create_existing_id_overwrites :
    lookupTask storeC8 (strOf "a") = some finishedA ∧
    setTask storeC8 (strOf "a") (initTask downloaderA 5) ≠ storeC8 ∧
    lookupTask (setTask storeC8 (strOf "a") (initTask downloaderA 5)) (strOf "a") =
      some (initTask downloaderA 5) ∧
    initTask downloaderA 5 ≠ finishedA := by
  decide

/-- C8 as amended: installing a record under an id never fails; it replaces
the record under that id when present (and otherwise appends), leaves every
other id's record untouched, and preserves the uniqueness of ids, so the
store holds at most one record per id but an existing record is overwritten
rather than protected. -/
theorem set_task_semantics (store : List (List Char × TaskRec)) (cid : List Char)
    (t : TaskRec) :
    lookupTask (setTask store cid t) cid = some t ∧
    (∀ c2, (c2 == cid) = false →
      lookupTask (setTask store cid t) c2 = lookupTask store c2) ∧
    ((store.map Prod.fst).Nodup → ((setTask store cid t).map Prod.fst).Nodup) := by
  unfold setTask
  by_cases hany : store.any (fun p => p.1 == cid) = true
  · rw [if_pos hany]
    refine ⟨?_, ?_, ?_⟩
    · rcases lookup_of_any store cid hany with ⟨u, hu⟩
      exact lookup_updateTask_self store cid (fun _ => t) u hu
    · intro c2 h2
      exact lookup_updateTask_ne store cid (fun _ => t) c2 h2
    · intro hnd
      rw [keys_updateTask]
      exact hnd
  · rw [if_neg hany]
    have hanyf : store.any (fun p => p.1 == cid) = false := by
      cases hb : store.any (fun p => p.1 == cid)
      · rfl
      · exact absurd hb hany
    refine ⟨lookup_append_self store cid t hanyf, ?_, ?_⟩
    · intro c2 h2
      exact lookup_append_ne store cid c2 t h2
    · intro hnd
      rw [List.map_append]
      rw [List.nodup_append]
      refine ⟨hnd, by simp, ?_⟩
      intro a ha hmem
      have ha2 : a = cid := by simpa using hmem
      subst ha2
      rcases List.mem_map.mp ha with ⟨q, hq, hqa⟩
      rw [List.any_eq_false] at hanyf
      exact hanyf q hq (beq_iff_eq.mpr hqa)

/-- Witness for set_task_semantics at a concrete store. -/
theorem set_task_semantics_w :
    lookupTask (setTask storeC8 (strOf "b") taskDL) (strOf "b") = some taskDL ∧
    lookupTask (setTask storeC8 (strOf "b") taskDL) (strOf "a") =
      lookupTask storeC8 (strOf "a") ∧
    ((setTask storeC8 (strOf "b") taskDL).map Prod.fst).Nodup :=
  ⟨(set_task_semantics storeC8 (strOf "b") taskDL).1,
   (set_task_semantics storeC8 (strOf "b") taskDL).2.1 (strOf "a") (by decide),
   (set_task_semantics storeC8 (strOf "b") taskDL).2.2 (by decide)⟩

/-- A record as it looks right after json.load, before validation: whether
it is a dict at all and which of the required fields (status, output,
created_at) are present. -/
structure RawRecord where
  isDict : Bool
  hasStatus : Bool
  hasOutput : Bool
  hasCreatedAt : Bool
deriving DecidableEq

/-- TaskManager validate_tasks keeps a record exactly when it is a dict
with all required fields. -/
def validRecord (r : RawRecord) : Bool :=
  r.isDict && r.hasStatus && r.hasOutput && r.hasCreatedAt

/-- The state of the durable task file at startup: absent, present but not
valid JSON, or parsed into records. -/
inductive TaskFileState
  | absent
  | corrupt
  | parsed (records : List (List Char × RawRecord))

/-- What load_tasks leaves behind: the in-memory store, whether a
timestamped backup copy was created, and whether the original durable file
was removed or renamed away from its path. -/
structure LoadOutcome where
  store : List (List Char × RawRecord)
  backupCreated : Bool
  originalRemoved : Bool
deriving DecidableEq

/-- TaskManager.load_tasks: an absent file yields an empty store; a corrupt
file is copied aside to a timestamped backup with shutil.copy2 (which
leaves the original file in place) and the store starts empty; a parsed
file is filtered by validate_tasks, dropping records that are not dicts or
lack a required field.  The function is total: no input state raises. -/
def load_tasks : TaskFileState → LoadOutcome
  | .absent => ⟨[], false, false⟩
  | .corrupt => ⟨[], true, false⟩
  | .parsed rs => ⟨rs.filter (fun p => validRecord p.2), false, false⟩

/-- Counterexample to C5: on a corrupt durable file the source calls
shutil.copy2, so a backup is created but the original file is not renamed
aside; it remains in place. -/
theorem load_corrupt_not_renamed :
    (load_tasks .corrupt).backupCreated = true ∧
    ¬((load_tasks .corrupt).originalRemoved = true) := by
  decide

/-- C5 as amended: an absent durable file yields an empty store; a corrupt
one yields an empty store plus a timestamped backup copy, without crashing,
though the corrupt original stays in place (copied, not renamed); and after
a successful parse exactly the records with all required fields survive
validation. -/
theorem load_tasks_recovery :
    (load_tasks .absent).store = [] ∧
    (load_tasks .corrupt).store = [] ∧
    (load_tasks .corrupt).backupCreated = true ∧
    (load_tasks .corrupt).originalRemoved = false ∧
    (∀ rs p, p ∈ (load_tasks (.parsed rs)).store → validRecord p.2 = true) ∧
    (∀ rs p, p ∈ rs → validRecord p.2 = true → p ∈ (load_tasks (.parsed rs)).store) := by
  refine ⟨rfl, rfl, rfl, rfl, ?_, ?_⟩
  · intro rs p hp
    have hp2 : p ∈ rs.filter (fun q => validRecord q.2) := hp
    simpa using List.of_mem_filter hp2
  · intro rs p hp hv
    show p ∈ rs.filter (fun q => validRecord q.2)
    exact List.mem_filter.mpr ⟨hp, by simpa using hv⟩

/-- Witness for load_tasks_recovery at a concrete record list. -/
theorem load_tasks_recovery_w :
    validRecord ⟨true, true, true, true⟩ = true ∧
    (strOf "a", (⟨true, true, true, true⟩ : RawRecord)) ∈
      (load_tasks (.parsed [(strOf "a", ⟨true, true, true, true⟩),
        (strOf "b", ⟨true, false, true, true⟩)])).store ∧
    ((strOf "b", (⟨true, false, true, true⟩ : RawRecord)) ∈
        (load_tasks (.parsed [(strOf "a", ⟨true, true, true, true⟩),
          (strOf "b", ⟨true, false, true, true⟩)])).store → False) :=
  ⟨by decide,
   load_tasks_recovery.2.2.2.2.2
     [(strOf "a", ⟨true, true, true, true⟩), (strOf "b", ⟨true, false, true, true⟩)]
     (strOf "a", ⟨true, true, true, true⟩) (by decide) (by decide),
   fun hmem => by
     have := load_tasks_recovery.2.2.2.2.1
       [(strOf "a", ⟨true, true, true, true⟩), (strOf "b", ⟨true, false, true, true⟩)]
       (strOf "b", ⟨true, false, true, true⟩) hmem
     simp [validRecord] at this⟩

/-- Insert an entry into a list already sorted by created_at, after every
entry with a strictly smaller key and before the first with an equal or
larger key; this is the unique stable position, so the resulting sort agrees
with Python's stable list.sort under the created_at key. -/
def insertByCreated (a : List Char × TaskRec) :
    List (List Char × TaskRec) → List (List Char × TaskRec)
  | [] => [a]
  | b :: l =>
    if b.2.created_at < a.2.created_at then b :: insertByCreated a l else a :: b :: l

/-- The sort on finished tasks by creation time used by limit_task_count. -/
def sortByCreated : List (List Char × TaskRec) → List (List Char × TaskRec)
  | [] => []
  | a :: l => insertByCreated a (sortByCreated l)

/-- The finished_tasks list of limit_task_count after its sort: the
terminal-status entries of the store, ordered by creation time. -/
def retainSort (store : List (List Char × TaskRec)) : List (List Char × TaskRec) :=
  sortByCreated (store.filter (fun q => isTerminal q.2.status))

/-- The slice finished_tasks[:to_remove] whose ids limit_task_count
deletes: the oldest terminal entries, one per task over the cap. -/
def removedSlice (store : List (List Char × TaskRec)) (maxTasks : Nat) :
    List (List Char × TaskRec) :=
  (retainSort store).take (store.length - maxTasks)

/-- TaskManager.limit_task_count: when the store strictly exceeds the cap,
collect the terminal tasks, sort them by creation time, and delete the
oldest length-minus-cap of them by id; otherwise do nothing. -/
def limit_task_count (store : List (List Char × TaskRec)) (maxTasks : Nat) :
    List (List Char × TaskRec) :=
  if maxTasks < store.length then
    store.filter (fun p => !((removedSlice store maxTasks).map Prod.fst).contains p.1)
  else store

/-- The order on store entries used by the retention sort. -/
def keyLe (a b : List Char × TaskRec) : Prop :=
  a.2.created_at ≤ b.2.created_at

theorem perm_insertByCreated (a : List Char × TaskRec)
    (l : List (List Char × TaskRec)) :
    List.Perm (insertByCreated a l) (a :: l) := by
  induction l with
  | nil => exact List.Perm.refl _
  | cons b t ih =>
    rw [insertByCreated]
    by_cases hb : b.2.created_at < a.2.created_at
    · rw [if_pos hb]
      exact (ih.cons b).trans (List.Perm.swap a b t)
    · rw [if_neg hb]

theorem perm_sortByCreated (l : List (List Char × TaskRec)) :
    List.Perm (sortByCreated l) l := by
  induction l with
  | nil => exact List.Perm.refl _
  | cons a t ih =>
    rw [sortByCreated]
    exact (perm_insertByCreated a (sortByCreated t)).trans (ih.cons a)

theorem sorted_insertByCreated (a : List Char × TaskRec)
    (l : List (List Char × TaskRec)) (h : List.Pairwise keyLe l) :
    List.Pairwise keyLe (insertByCreated a l) := by
  induction l with
  | nil => simp [insertByCreated, List.pairwise_cons]
  | cons b t ih =>
    rw [insertByCreated]
    rcases List.pairwise_cons.mp h with ⟨hbt, ht⟩
    by_cases hb : b.2.created_at < a.2.created_at
    · rw [if_pos hb]
      rw [List.pairwise_cons]
      refine ⟨?_, ih ht⟩
      intro x hx
      have hx2 : x ∈ a :: t := (perm_insertByCreated a t).mem_iff.mp hx
      rcases List.mem_cons.mp hx2 with hx3 | hx3
      · subst hx3
        exact Nat.le_of_lt hb
      · exact hbt x hx3
    · rw [if_neg hb]
      rw [List.pairwise_cons]
      refine ⟨?_, h⟩
      intro x hx
      have hab : keyLe a b := Nat.le_of_not_lt hb
      rcases List.mem_cons.mp hx with hx3 | hx3
      · subst hx3
        exact hab
      · exact Nat.le_trans hab (hbt x hx3)

theorem sorted_sortByCreated (l : List (List Char × TaskRec)) :
    List.Pairwise keyLe (sortByCreated l) := by
  induction l with
  | nil => exact List.Pairwise.nil
  | cons a t ih =>
    rw [sortByCreated]
    exact sorted_insertByCreated a (sortByCreated t) ih

theorem removedSlice_mem_filter (store : List (List Char × TaskRec)) (m : Nat)
    (p : List Char × TaskRec) (hp : p ∈ removedSlice store m) :
    p ∈ store.filter (fun q => isTerminal q.2.status) := by
  have h1 : p ∈ retainSort store := (List.take_sublist _ _).mem hp
  exact (perm_sortByCreated _).mem_iff.mp h1

theorem removedSlice_terminal (store : List (List Char × TaskRec)) (m : Nat)
    (p : List Char × TaskRec) (hp : p ∈ removedSlice store m) :
    isTerminal p.2.status = true := by
  simpa using List.of_mem_filter (removedSlice_mem_filter store m p hp)

theorem removedSlice_mem_store (store : List (List Char × TaskRec)) (m : Nat)
    (p : List Char × TaskRec) (hp : p ∈ removedSlice store m) : p ∈ store :=
  List.mem_of_mem_filter (removedSlice_mem_filter store m p hp)

theorem store_nodup_of_keys (store : List (List Char × TaskRec))
    (hnd : (store.map Prod.fst).Nodup) : store.Nodup :=
  List.Nodup.of_map Prod.fst hnd

theorem retainSort_nodup (store : List (List Char × TaskRec))
    (hnd : (store.map Prod.fst).Nodup) : (retainSort store).Nodup :=
  (perm_sortByCreated _).symm.nodup
    ((store_nodup_of_keys store hnd).filter (fun q => isTerminal q.2.status))

theorem removedSlice_nodup (store : List (List Char × TaskRec)) (m : Nat)
    (hnd : (store.map Prod.fst).Nodup) : (removedSlice store m).Nodup :=
  (List.take_sublist _ _).nodup (retainSort_nodup store hnd)

theorem mem_removedSlice_of_contains (store : List (List Char × TaskRec)) (m : Nat)
    (hnd : (store.map Prod.fst).Nodup) (p : List Char × TaskRec) (hp : p ∈ store)
    (hc : ((removedSlice store m).map Prod.fst).contains p.1 = true) :
    p ∈ removedSlice store m := by
  have hmem : p.1 ∈ (removedSlice store m).map Prod.fst := List.elem_iff.mp hc
  rcases List.mem_map.mp hmem with ⟨q, hq, hqa⟩
  have hqstore : q ∈ store := removedSlice_mem_store store m q hq
  have heq : q = p := List.inj_on_of_nodup_map hnd hqstore hp hqa
  exact heq ▸ hq

theorem removedSlice_length (store : List (List Char × TaskRec)) (m : Nat)
    (henough : store.length - m ≤
      (store.filter (fun p => isTerminal p.2.status)).length) :
    (removedSlice store m).length = store.length - m := by
  rw [removedSlice, List.length_take]
  apply Nat.min_eq_left
  rw [retainSort, (perm_sortByCreated _).length_eq]
  exact henough

theorem filter_contains_perm (store : List (List Char × TaskRec)) (m : Nat)
    (hnd : (store.map Prod.fst).Nodup) :
    List.Perm
      (store.filter (fun p => ((removedSlice store m).map Prod.fst).contains p.1))
      (removedSlice store m) := by
  apply (List.perm_ext_iff_of_nodup
    ((store_nodup_of_keys store hnd).filter _) (removedSlice_nodup store m hnd)).mpr
  intro a
  constructor
  · intro ha
    have h1 : a ∈ store := List.mem_of_mem_filter ha
    have h2 := List.of_mem_filter ha
    exact mem_removedSlice_of_contains store m hnd a h1 h2
  · intro ha
    apply List.mem_filter.mpr
    refine ⟨removedSlice_mem_store store m a ha, ?_⟩
    have hm : a.1 ∈ (removedSlice store m).map Prod.fst := List.mem_map_of_mem Prod.fst ha
    exact List.elem_iff.mpr hm

/-- C3 as amended: capacity enforcement is a no-op while the store is at or
under the cap (the trigger is strictly greater-than, so the submission that
brings the store to the cap plus one sees no eviction beforehand); once the
store strictly exceeds the cap it never removes a non-terminal task, and
when enough terminal tasks exist it removes exactly the oldest terminal
tasks by creation time, reducing the store to the cap. -/
theorem limit_task_count_spec :
    (∀ store m, store.length ≤ m → limit_task_count store m = store) ∧
    (∀ store m, (store.map Prod.fst).Nodup →
      ∀ p ∈ store, isTerminal p.2.status = false → p ∈ limit_task_count store m) ∧
    (∀ store m, (store.map Prod.fst).Nodup → m < store.length →
      store.length - m ≤ (store.filter (fun p => isTerminal p.2.status)).length →
      (limit_task_count store m).length = m ∧
      (∀ p ∈ store, p ∉ limit_task_count store m →
        isTerminal p.2.status = true ∧
        ∀ q ∈ limit_task_count store m, isTerminal q.2.status = true →
          p.2.created_at ≤ q.2.created_at)) := by
  refine ⟨?_, ?_, ?_⟩
  · intro store m hle
    unfold limit_task_count
    rw [if_neg (Nat.not_lt.mpr hle)]
  · intro store m hnd p hp hterm
    unfold limit_task_count
    by_cases hlen : m < store.length
    · rw [if_pos hlen]
      apply List.mem_filter.mpr
      refine ⟨hp, ?_⟩
      show (!((removedSlice store m).map Prod.fst).contains p.1) = true
      cases hc : ((removedSlice store m).map Prod.fst).contains p.1
      · rfl
      · have hpT := mem_removedSlice_of_contains store m hnd p hp hc
        have hT := removedSlice_terminal store m p hpT
        rw [hterm] at hT
        cases hT
    · rw [if_neg hlen]
      exact hp
  · intro store m hnd hlen henough
    have hval : limit_task_count store m =
        store.filter (fun p => !((removedSlice store m).map Prod.fst).contains p.1) := by
      unfold limit_task_count
      rw [if_pos hlen]
    have hlenT : (removedSlice store m).length = store.length - m :=
      removedSlice_length store m henough
    have hsplit : store.length =
        (store.filter
          (fun p => ((removedSlice store m).map Prod.fst).contains p.1)).length +
        (store.filter
          (fun p => !((removedSlice store m).map Prod.fst).contains p.1)).length :=
      List.length_eq_length_filter_add _
    have hflen : (store.filter
        (fun p => ((removedSlice store m).map Prod.fst).contains p.1)).length =
        store.length - m := by
      rw [(filter_contains_perm store m hnd).length_eq, hlenT]
    constructor
    · rw [hval]
      omega
    · intro p hp hpnot
      rw [hval] at hpnot
      have hcont : ((removedSlice store m).map Prod.fst).contains p.1 = true := by
        cases hc : ((removedSlice store m).map Prod.fst).contains p.1
        · exfalso
          apply hpnot
          apply List.mem_filter.mpr
          refine ⟨hp, ?_⟩
          show (!((removedSlice store m).map Prod.fst).contains p.1) = true
          rw [hc]
          rfl
        · rfl
      have hpT : p ∈ removedSlice store m :=
        mem_removedSlice_of_contains store m hnd p hp hcont
      refine ⟨removedSlice_terminal store m p hpT, ?_⟩
      intro q hq hqterm
      rw [hval] at hq
      have hqs : q ∈ store := List.mem_of_mem_filter hq
      have hqnc : ((removedSlice store m).map Prod.fst).contains q.1 = false := by
        have h2 : (!((removedSlice store m).map Prod.fst).contains q.1) = true :=
          (List.mem_filter.mp hq).2
        cases hc : ((removedSlice store m).map Prod.fst).contains q.1
        · rfl
        · rw [hc] at h2
          cases h2
      have hqF : q ∈ store.filter (fun r => isTerminal r.2.status) :=
        List.mem_filter.mpr ⟨hqs, hqterm⟩
      have hqS : q ∈ retainSort store := (perm_sortByCreated _).mem_iff.mpr hqF
      have hqTD : q ∈ (retainSort store).take (store.length - m) ∨
          q ∈ (retainSort store).drop (store.length - m) := by
        rw [← List.mem_append, List.take_append_drop]
        exact hqS
      have hqD : q ∈ (retainSort store).drop (store.length - m) := by
        rcases hqTD with h | h
        · exfalso
          have hmm : q.1 ∈ (removedSlice store m).map Prod.fst :=
            List.mem_map_of_mem Prod.fst h
          have hcq : ((removedSlice store m).map Prod.fst).contains q.1 = true :=
            List.elem_iff.mpr hmm
          rw [hcq] at hqnc
          cases hqnc
        · exact h
      have hpair := List.pairwise_append.mp
        (show List.Pairwise keyLe ((retainSort store).take (store.length - m) ++
            (retainSort store).drop (store.length - m)) by
          rw [List.take_append_drop]
          exact sorted_sortByCreated _)
      have hpT2 : p ∈ (retainSort store).take (store.length - m) := hpT
      exact hpair.2.2 p hpT2 q hqD

/-- A small task record with a given status and creation time. -/
def tsk (st : String) (c : Nat) : TaskRec :=
  { taskDL with status := strOf st, created_at := c }

/-- A store of three tasks, two terminal, strictly over a cap of two. -/
def storeOver : List (List Char × TaskRec) :=
  [(strOf "x", tsk "finished" 0), (strOf "y", tsk "finished" 1),
   (strOf "z", tsk "downloading" 2)]

/-- Witness for limit_task_count_spec at concrete stores. -/
theorem limit_task_count_spec_w :
    limit_task_count storeOver 3 = storeOver ∧
    (limit_task_count storeOver 2).length = 2 ∧
    (strOf "z", tsk "downloading" 2) ∈ limit_task_count storeOver 2 :=
  ⟨limit_task_count_spec.1 storeOver 3 (by decide),
   (limit_task_count_spec.2.2 storeOver 2 (by decide) (by decide) (by decide)).1,
   limit_task_count_spec.2.1 storeOver 2 (by decide)
     (strOf "z", tsk "downloading" 2) (by decide) (by decide)⟩

/-- The id used for the i-th task of the fifty-task store below. -/
def idOf (i : Nat) : List Char := (toString i).data

/-- The i-th task of the fifty-task store: the first ten are finished, the
rest are downloading, created in id order. -/
def mkCountTask (i : Nat) : TaskRec :=
  { taskDL with
      status := if i < 10 then strOf "finished" else strOf "downloading"
      created_at := i }

/-- A store holding exactly MAX_TASKS tasks, ten of them terminal. -/
def mkStore50 : List (List Char × TaskRec) :=
  (List.range 50).map (fun i => (idOf i, mkCountTask i))

set_option maxRecDepth 20000 in
/-- Counterexample to C3: with the store holding exactly MAX_TASKS tasks
(ten of them terminal), the capacity check before the fifty-first submission
evicts nothing, because the trigger is strictly greater-than; the submission
is then accepted and the store grows to fifty-one. -/
theorem capacity_claim_false :
    mkStore50.length = 50 ∧
    (mkStore50.filter (fun p => isTerminal p.2.status)).length = 10 ∧
    limit_task_count mkStore50 50 = mkStore50 ∧
    (setTask mkStore50 (idOf 50) (initTask downloaderA 50)).length = 51 := by
  refine ⟨by decide, by decide, ?_, by decide⟩
  unfold limit_task_count
  rw [if_neg (by decide)]
